import Mathlib

/-!
Shallow embedding of the numeric engine of the `llm_emulator` repository
(`src/lib/math.ts`): vector primitives, the attention head, the transformer
layer, the forward pass and the training step.  JavaScript `number` values are
modelled as exact real numbers (`ℝ`), `Math.exp` / `Math.sqrt` / `Math.log` as
`Real.exp` / `Real.sqrt` / `Real.log`, and arrays as lists.  Index loops are
rendered as maps over `List.range`; in-place mutation becomes functional
update.  `Math.random()` draws are threaded explicitly through an oracle
`rand : ℕ → ℝ` (one entry per successive draw; the source draws values in
`[0, 1)`).  Where the JavaScript source would read past the end of an array
(producing `undefined` / `NaN` / a thrown `TypeError`), the embedding is total
with default values; theorems about such code carry in-bounds hypotheses, and
the one crash the claims rely on (`trainStep` on zero-layer weights) is
modelled by an `Option` result.
-/

/-- Model number type: JavaScript floats are embedded as exact reals. -/
abbrev R := ℝ

/-- Source `dotProduct`: `a.reduce((sum, v, i) => sum + v * b[i], 0)`.
The source iterates over `a`; when `b` is at least as long as `a` this equals
the sum of pairwise products, which is what `zipWith` computes (when `b` is
shorter the source would produce `NaN`; theorems keep lengths matched). -/
noncomputable def dotProduct (a b : List R) : R :=
  (List.zipWith (fun x y => x * y) a b).sum

/-- Source `matVecMul`: `matrix.map((row) => dotProduct(row, vec))`.
Note the result length is the number of rows of `matrix`. -/
noncomputable def matVecMul (matrix : List (List R)) (vec : List R) : List R :=
  matrix.map (fun row => dotProduct row vec)

/-- Source `vecAdd`: `a.map((v, i) => v + b[i])` (elementwise sum; the source
maps over `a`, so lengths must agree for a `NaN`-free result). -/
noncomputable def vecAdd (a b : List R) : List R :=
  List.zipWith (fun x y => x + y) a b

/-- Source `relu`: `x.map((v) => Math.max(0, v))`. -/
noncomputable def relu (x : List R) : List R :=
  x.map (fun v => max 0 v)

/-- Mean as computed inline by `layerNorm`: `x.reduce((a,b) => a+b, 0) / x.length`. -/
noncomputable def meanOf (x : List R) : R :=
  x.sum / x.length

/-- Variance as computed inline by `layerNorm`:
`x.reduce((sum, v) => sum + (v - mean) ** 2, 0) / x.length`. -/
noncomputable def varOf (x : List R) : R :=
  (x.map (fun v => (v - meanOf x) ^ 2)).sum / x.length

/-- Source `layerNorm`: subtract the mean and divide by
`Math.sqrt(variance + 1e-5)`. -/
noncomputable def layerNorm (x : List R) : List R :=
  x.map (fun v => (v - meanOf x) / Real.sqrt (varOf x + 1e-5))

/-- Maximum of a list, modelling `Math.max(...x)` for non-empty `x`
(the empty case, `-Infinity` in JavaScript, is never reached by the claims). -/
noncomputable def listMax : List R → R
  | [] => 0
  | a :: t => t.foldl max a

/-- Source `softmax`: subtract the maximum, exponentiate, normalize by the sum. -/
noncomputable def softmax (x : List R) : List R :=
  let maxVal := listMax x
  let expValues := x.map (fun v => Real.exp (v - maxVal))
  let sumExp := expValues.sum
  expValues.map (fun v => v / sumExp)

/-- Source `crossEntropyLoss`: `-Math.log(Math.max(predicted[targetIndex], 1e-10))`. -/
noncomputable def crossEntropyLoss (predicted : List R) (targetIndex : Nat) : R :=
  -Real.log (max (predicted.getD targetIndex 0) 1e-10)

/-- Source `AttentionHead` record: query/key/value projection matrices. -/
structure AttentionHead where
  Wq : List (List R)
  Wk : List (List R)
  Wv : List (List R)

/-- Source `TransformerLayer.attention` record. -/
structure Attention where
  heads : List AttentionHead

/-- Source `TransformerLayer.ffn` record. -/
structure FFN where
  W1 : List (List R)
  b1 : List R
  W2 : List (List R)
  b2 : List R

/-- Source `TransformerLayer` record. -/
structure TransformerLayer where
  attention : Attention
  ffn : FFN

/-- Source `Weights.output` record. -/
structure OutputLayer where
  W : List (List R)
  b : List R

/-- Source `Weights` record. -/
structure Weights where
  embeddings : List (List R)
  layers : List TransformerLayer
  output : OutputLayer

/-- Per-layer entry of `ForwardResult.layerOutputs`. -/
structure LayerOutput where
  attentionScores : List (List (List R))
  attentionOutput : List (List R)
  ffnOutput : List (List R)

/-- Source `ForwardResult` (the `loss` and `targetToken` fields are optional). -/
structure ForwardResult where
  inputTokens : List Nat
  embeddings : List (List R)
  layerOutputs : List LayerOutput
  logits : List R
  probabilities : List R
  predictedToken : Nat
  loss : Option R
  targetToken : Option Nat

/-- Per-position query vectors of one head: `input.map((x) => matVecMul(head.Wq, x))`.
Each query vector has length `head.Wq.length` (the matrix row count). -/
noncomputable def headQ (input : List (List R)) (head : AttentionHead) : List (List R) :=
  input.map (fun x => matVecMul head.Wq x)

/-- Per-position key vectors of one head: `input.map((x) => matVecMul(head.Wk, x))`. -/
noncomputable def headK (input : List (List R)) (head : AttentionHead) : List (List R) :=
  input.map (fun x => matVecMul head.Wk x)

/-- Per-position value vectors of one head: `input.map((x) => matVecMul(head.Wv, x))`. -/
noncomputable def headV (input : List (List R)) (head : AttentionHead) : List (List R) :=
  input.map (fun x => matVecMul head.Wv x)

/-- The scale used by the source: `Math.sqrt(dk)` with `dk = Q[0].length`. -/
noncomputable def headScale (input : List (List R)) (head : AttentionHead) : R :=
  Real.sqrt (((headQ input head).headD []).length)

/-- Row `i` of the pre-softmax score matrix of one head: `-1e9` at masked
positions `j > i`, otherwise `dotProduct(Q[i], K[j]) / scale`. -/
noncomputable def headRawRow (input : List (List R)) (head : AttentionHead) (i : Nat) :
    List R :=
  (List.range input.length).map (fun j =>
    if j > i then (-1e9 : R)
    else dotProduct (((headQ input head)).getD i []) (((headK input head)).getD j []) /
      headScale input head)

/-- Source `attentionHead`: per-row softmax of the masked scores, then the
score-weighted combination of the value vectors
(`weighted[k] = Σ_j scores[i][j] * V[j][k]`, `k < V[0].length`). -/
noncomputable def attentionHead (input : List (List R)) (head : AttentionHead) :
    List (List R) × List (List R) :=
  let seqLen := input.length
  let V := headV input head
  let scores := (List.range seqLen).map (fun i => softmax (headRawRow input head i))
  let output := (List.range seqLen).map (fun i =>
    (List.range (V.headD []).length).map (fun k =>
      ((List.range seqLen).map (fun j =>
        ((scores.getD i []).getD j 0) * ((V.getD j []).getD k 0))).sum))
  (scores, output)

/-- Source `feedForward`: linear → ReLU → linear. -/
noncomputable def feedForward (input : List R) (ffn : FFN) : List R :=
  let hidden := relu (vecAdd (matVecMul ffn.W1 input) ffn.b1)
  vecAdd (matVecMul ffn.W2 hidden) ffn.b2

/-- The head-combination loop of `forward`:
`combined[d] += headOut[i][d % headOut[i].length] / headOutputs.length`, for
`d < current[0].length`. -/
noncomputable def combineHeads (current : List (List R)) (headOutputs : List (List (List R)))
    (i : Nat) : List R :=
  (List.range (current.headD []).length).map (fun d =>
    (headOutputs.map (fun headOut =>
      ((headOut.getD i []).getD (d % (headOut.getD i []).length) 0) /
        (headOutputs.length : R))).sum)

/-- One iteration of the `for (const layer of weights.layers)` loop of `forward`:
multi-head attention, averaged combination, residual + `layerNorm`,
position-wise feed-forward, residual + `layerNorm`. -/
noncomputable def layerForward (current : List (List R)) (layer : TransformerLayer) :
    LayerOutput × List (List R) :=
  let headResults := layer.attention.heads.map (fun h => attentionHead current h)
  let allScores := headResults.map Prod.fst
  let headOutputs := headResults.map Prod.snd
  let attentionOutput := (List.range current.length).map (fun i =>
    combineHeads current headOutputs i)
  let afterAttention := List.zipWith (fun x a => layerNorm (vecAdd x a)) current attentionOutput
  let ffnOutput := afterAttention.map (fun x => feedForward x layer.ffn)
  let current2 := List.zipWith (fun x f => layerNorm (vecAdd x f)) afterAttention ffnOutput
  (⟨allScores, attentionOutput, ffnOutput⟩, current2)

/-- The layer loop of `forward`, accumulating the per-layer outputs in order. -/
noncomputable def runLayers : List (List R) → List TransformerLayer →
    List LayerOutput × List (List R)
  | current, [] => ([], current)
  | current, layer :: rest =>
    let step := layerForward current layer
    let next := runLayers step.2 rest
    (step.1 :: next.1, next.2)

/-- The argmax loop of `forward` (`maxProb` starts at `-1`; a strictly greater
probability wins, so the first index of the maximum is kept). -/
noncomputable def argmaxFrom : List R → R → Nat → Nat → Nat
  | [], _, _, best => best
  | p :: rest, maxProb, i, best =>
    if maxProb < p then argmaxFrom rest p (i + 1) i
    else argmaxFrom rest maxProb (i + 1) best

/-- Predicted token of `forward`: index of the (first) maximal probability. -/
noncomputable def argmax (probabilities : List R) : Nat :=
  argmaxFrom probabilities (-1) 0 0

/-- Embedding lookup of `forward`: `inputTokens.map((t) => [...weights.embeddings[t]])`. -/
noncomputable def embedLookup (inputTokens : List Nat) (weights : Weights) : List (List R) :=
  inputTokens.map (fun t => weights.embeddings.getD t [])

/-- The hidden vector `forward` projects through the output layer:
`current[seqLen - 1]` after all transformer layers. -/
noncomputable def finalHidden (inputTokens : List Nat) (weights : Weights) : List R :=
  (runLayers (embedLookup inputTokens weights) weights.layers).2.getD
    (inputTokens.length - 1) []

/-- Source `forward`: embedding lookup, layer loop, projection of the final
hidden vector, softmax, argmax, optional loss. -/
noncomputable def forward (inputTokens : List Nat) (weights : Weights)
    (targetToken : Option Nat) : ForwardResult :=
  let current0 := embedLookup inputTokens weights
  let run := runLayers current0 weights.layers
  let logits := vecAdd (matVecMul weights.output.W (finalHidden inputTokens weights))
    weights.output.b
  let probabilities := softmax logits
  { inputTokens := inputTokens
    embeddings := current0
    layerOutputs := run.1
    logits := logits
    probabilities := probabilities
    predictedToken := argmax probabilities
    loss := targetToken.map (fun t => crossEntropyLoss probabilities t)
    targetToken := targetToken }

/-- JavaScript array indexing with a possibly negative index: `l[i]` is
`undefined` (here `none`) when `i` is negative or past the end. -/
def getAt? {α : Type} (l : List α) (i : Int) : Option α :=
  if 0 ≤ i then l.get? i.toNat else none

/-- The `lastHidden` read of `trainStep`:
`result.layerOutputs[result.layerOutputs.length - 1].ffnOutput[inputTokens.length - 1]`.
With zero layers the first index is `-1`, `layerOutputs[-1]` is `undefined`,
and the source throws before producing any result — modelled by `none`. -/
noncomputable def lastFfnHidden (res : ForwardResult) (inputTokens : List Nat) :
    Option (List R) :=
  match getAt? res.layerOutputs ((res.layerOutputs.length : Int) - 1) with
  | none => none
  | some lastLO => getAt? lastLO.ffnOutput ((inputTokens.length : Int) - 1)

/-- The output-bias update loop of `trainStep`:
`newWeights.output.b[v] += learningRate * error` for `v < probs.length`
(entries past `b.length`, which the source would fill with `NaN`, are dropped). -/
noncomputable def updB (b probs : List R) (targetToken : Nat) (learningRate : R) : List R :=
  (List.range b.length).map (fun v =>
    if v < probs.length then
      b.getD v 0 + learningRate * ((if v = targetToken then 1 else 0) - probs.getD v 0)
    else b.getD v 0)

/-- The output-weight update loop of `trainStep`:
`newWeights.output.W[d][v] += learningRate * error * lastHidden[d]` for
`v < probs.length` and `d < lastHidden.length`. -/
noncomputable def updW (W : List (List R)) (probs lastHidden : List R) (targetToken : Nat)
    (learningRate : R) : List (List R) :=
  (List.range W.length).map (fun d =>
    if d < lastHidden.length then
      (List.range (W.getD d []).length).map (fun v =>
        if v < probs.length then
          (W.getD d []).getD v 0 +
            learningRate * ((if v = targetToken then 1 else 0) - probs.getD v 0) *
              lastHidden.getD d 0
        else (W.getD d []).getD v 0)
    else W.getD d [])

/-- The embedding update loop of `trainStep`: one pass per element of
`inputTokens` (in order), adding
`learningRate * (Math.random() - 0.5) * 0.1` to every coordinate of that
token's row.  The oracle `rand` supplies the successive `Math.random()` draws,
`k` being the index of the next draw. -/
noncomputable def updateEmbRows : List Nat → List (List R) → R → (Nat → R) → Nat →
    List (List R)
  | [], emb, _, _, _ => emb
  | tokenId :: rest, emb, learningRate, rand, k =>
    let row := emb.getD tokenId []
    let newRow := (List.range row.length).map (fun d =>
      row.getD d 0 + learningRate * (rand (k + d) - 0.5) * 0.1)
    updateEmbRows rest (emb.set tokenId newRow) learningRate rand (k + row.length)

/-- Result record of `trainStep`. -/
structure TrainOut where
  newWeights : Weights
  loss : R
  result : ForwardResult

/-- Source `trainStep`: one forward pass, a deep copy of the weights (identity
under value semantics), the output-layer update, and the random embedding
perturbation.  Returns `none` exactly when the source would throw while
reading `lastHidden` (empty `layerOutputs`, i.e. zero layers, or empty
`inputTokens`). -/
noncomputable def trainStep (inputTokens : List Nat) (targetToken : Nat) (weights : Weights)
    (learningRate : R) (rand : Nat → R) : Option TrainOut :=
  let result := forward inputTokens weights (some targetToken)
  let loss := result.loss.getD 0
  match lastFfnHidden result inputTokens with
  | none => none
  | some lastHidden =>
    let probs := result.probabilities
    some
      { newWeights :=
          { embeddings := updateEmbRows inputTokens weights.embeddings learningRate rand 0
            layers := weights.layers
            output :=
              { W := updW weights.output.W probs lastHidden targetToken learningRate
                b := updB weights.output.b probs targetToken learningRate } }
        loss := loss
        result := result }

/-- Oracle of `Math.random()` draws, all `0` (a legal draw sequence). -/
noncomputable def czero : Nat → R := fun _ => 0

/-- Oracle of `Math.random()` draws, all `0.9` (a legal draw sequence). -/
noncomputable def crand9 : Nat → R := fun _ => 9 / 10

/-- Concrete 1×1 attention head with zero projections. -/
noncomputable def zeroHead : AttentionHead := ⟨[[0]], [[0]], [[0]]⟩

/-- Concrete transformer layer over one embedding dimension, all parameters zero. -/
noncomputable def zeroLayer : TransformerLayer := ⟨⟨[zeroHead]⟩, ⟨[[0]], [0], [[0]], [0]⟩⟩

/-- Concrete weights: one vocabulary entry, one embedding dimension, one layer,
everything zero. -/
noncomputable def zeroW : Weights := ⟨[[0]], [zeroLayer], ⟨[[0]], [0]⟩⟩

/-- Concrete weights with no transformer layer at all (`numLayers = 0`). -/
noncomputable def zeroLayersW : Weights := ⟨[[0]], [], ⟨[[0]], [0]⟩⟩

/-- Concrete head over two embedding dimensions whose projection matrices have
one column (`headDim = 1`) but two rows. -/
noncomputable def colHead : AttentionHead := ⟨[[1], [0]], [[1], [0]], [[1], [0]]⟩

/-- Concrete 2×2 attention head with zero projections. -/
noncomputable def zeroHead2 : AttentionHead :=
  ⟨[[0, 0], [0, 0]], [[0, 0], [0, 0]], [[0, 0], [0, 0]]⟩

/-- Concrete layer over two embedding dimensions: attention and the first
feed-forward stage are zero, the feed-forward output bias is `[3, 1]`. -/
noncomputable def bias31Layer : TransformerLayer :=
  ⟨⟨[zeroHead2]⟩, ⟨[[0, 0], [0, 0]], [0, 0], [[0, 0], [0, 0]], [3, 1]⟩⟩

/-- Concrete weights (two vocabulary entries, two embedding dimensions, one
layer) whose only nonzero parameter is the feed-forward output bias. -/
noncomputable def bias31W : Weights :=
  ⟨[[0, 0], [0, 0]], [bias31Layer], ⟨[[0, 0], [0, 0]], [0, 0]⟩⟩

/-! Helper lemmas about list indexing and sums. -/

/-- Entry `i` of a map over `List.range`. -/
theorem getD_range_map {α : Type} (f : Nat → α) (n i : Nat) (d : α) (hi : i < n) :
    ((List.range n).map f).getD i d = f i := by
  rw [List.getD_eq_getElem _ _ (by simpa)]
  simp

/-- Entry `i` of a mapped list, for an in-bounds index. -/
theorem getD_map {α β : Type} (l : List α) (f : α → β) (i : Nat) (d : β) (d2 : α)
    (hi : i < l.length) : (l.map f).getD i d = f (l.getD i d2) := by
  rw [List.getD_eq_getElem _ _ (by simpa), List.getD_eq_getElem _ _ hi]
  simp

/-- An in-bounds `getD` is a member of the list. -/
theorem getD_mem {α : Type} (l : List α) (i : Nat) (d : α) (hi : i < l.length) :
    l.getD i d ∈ l := by
  rw [List.getD_eq_getElem _ _ hi]
  exact List.getElem_mem hi

/-- Sum of a list divided elementwise by a constant. -/
theorem sum_map_div_const (l : List R) (c : R) :
    (l.map (fun v => v / c)).sum = l.sum / c := by
  induction l with
  | nil => simp
  | cons a t ih => simp [ih, add_div]

/-- Sum of a list shifted elementwise by a constant. -/
theorem sum_map_sub_const (l : List R) (c : R) :
    (l.map (fun v => v - c)).sum = l.sum - l.length * c := by
  induction l with
  | nil => simp
  | cons a t ih =>
    simp only [List.map_cons, List.sum_cons, ih, List.length_cons]
    push_cast
    ring

/-- A sum of squared deviations vanishes only when every entry equals the center. -/
theorem sum_map_sq_eq_zero (l : List R) (c : R)
    (h : (l.map (fun v => (v - c) ^ 2)).sum = 0) : ∀ v ∈ l, v = c := by
  induction l with
  | nil => simp
  | cons a t ih =>
    simp only [List.map_cons, List.sum_cons] at h
    have h1 : (0 : R) ≤ (a - c) ^ 2 := sq_nonneg _
    have h2 : (0 : R) ≤ (t.map (fun v => (v - c) ^ 2)).sum :=
      List.sum_nonneg (by
        intro x hx
        obtain ⟨v, _, rfl⟩ := List.mem_map.mp hx
        exact sq_nonneg _)
    have ha : (a - c) ^ 2 = 0 := by linarith
    have ht : (t.map (fun v => (v - c) ^ 2)).sum = 0 := by linarith
    intro v hv
    rcases List.mem_cons.mp hv with rfl | hv
    · have := pow_eq_zero_iff (n := 2) (by norm_num) |>.mp ha
      linarith [sub_eq_zero.mp this]
    · exact ih ht v hv

/-- Folding `max` commutes with adding a constant to every operand. -/
theorem foldl_max_map_add (c : R) (t : List R) :
    ∀ a, (t.map (fun v => v + c)).foldl max (a + c) = t.foldl max a + c := by
  induction t with
  | nil => intro a; simp
  | cons b t ih =>
    intro a
    simp only [List.map_cons, List.foldl_cons]
    rw [max_add_add_right]
    exact ih (max a b)

/-- The list maximum commutes with adding a constant (non-empty lists). -/
theorem listMax_map_add (x : List R) (c : R) (hx : x ≠ []) :
    listMax (x.map (fun v => v + c)) = listMax x + c := by
  cases x with
  | nil => exact absurd rfl hx
  | cons a t =>
    simp only [List.map_cons, listMax]
    exact foldl_max_map_add c t a

/-- The sum of the exponentials inside `softmax` is positive for non-empty input. -/
theorem sumExp_pos (x : List R) (hx : x ≠ []) :
    0 < (x.map (fun v => Real.exp (v - listMax x))).sum := by
  apply List.sum_pos
  · intro a ha
    obtain ⟨v, _, rfl⟩ := List.mem_map.mp ha
    exact Real.exp_pos _
  · simpa using hx

/-- Entry `j` of `softmax x`, for an in-bounds index. -/
theorem softmax_getD (x : List R) (j : Nat) (hj : j < x.length) :
    (softmax x).getD j 0 =
      Real.exp (x.getD j 0 - listMax x) /
        (x.map (fun v => Real.exp (v - listMax x))).sum := by
  unfold softmax
  rw [getD_map _ _ _ _ 0 (by simpa), getD_map _ _ _ _ 0 hj]

/-- Length of `softmax`. -/
theorem softmax_length (x : List R) : (softmax x).length = x.length := by
  simp [softmax]

/-- Claim C8: for every finite non-empty input vector `x`, `softmax x` has the
same length as `x`, its elements lie in `[0, 1]` and sum to exactly `1` (hence
within `1e-9`), and adding any scalar `c` to every element leaves the result
unchanged (exact shift invariance, from the subtract-the-maximum rule). -/
theorem softmax_spec (x : List R) (c : R) (hx : x ≠ []) :
    (softmax x).length = x.length ∧
    (softmax x).sum = 1 ∧
    (∀ p ∈ softmax x, 0 ≤ p ∧ p ≤ 1) ∧
    softmax (x.map (fun v => v + c)) = softmax x := by
  have hS : 0 < (x.map (fun v => Real.exp (v - listMax x))).sum := sumExp_pos x hx
  refine ⟨softmax_length x, ?_, ?_, ?_⟩
  · unfold softmax
    rw [sum_map_div_const]
    exact div_self (ne_of_gt hS)
  · intro p hp
    unfold softmax at hp
    obtain ⟨e, he, rfl⟩ := List.mem_map.mp hp
    have hepos : 0 < e := by
      obtain ⟨v, _, rfl⟩ := List.mem_map.mp he
      exact Real.exp_pos _
    constructor
    · exact div_nonneg hepos.le hS.le
    · rw [div_le_one hS]
      apply List.single_le_sum _ _ he
      intro a ha
      obtain ⟨v, _, rfl⟩ := List.mem_map.mp ha
      exact (Real.exp_pos _).le
  · have hmaps : (x.map (fun v => v + c)).map (fun v => Real.exp (v - (listMax x + c))) =
        x.map (fun v => Real.exp (v - listMax x)) := by
      rw [List.map_map]
      congr 1
      funext v
      show Real.exp (v + c - (listMax x + c)) = Real.exp (v - listMax x)
      ring_nf
    simp only [softmax]
    rw [listMax_map_add x c hx, hmaps]

/-- Claim C8 witness: `softmax [0, 3]` at the concrete shift `c = 2`. -/
theorem softmax_spec_witness :
    ([(0 : R), 3] ≠ [] ∧ True) ∧
    ((softmax [(0 : R), 3]).length = [(0 : R), 3].length ∧
      (softmax [(0 : R), 3]).sum = 1 ∧
      (∀ p ∈ softmax [(0 : R), 3], 0 ≤ p ∧ p ≤ 1) ∧
      softmax ([(0 : R), 3].map (fun v => v + 2)) = softmax [(0 : R), 3]) :=
  ⟨⟨by simp, trivial⟩, softmax_spec [(0 : R), 3] 2 (by simp)⟩

/-- Claim C7: `layerNorm` rescales a non-empty vector to zero mean, with the
variance floored by `1e-5` before the square root so the divisor is strictly
positive; a constant vector maps to all zeros, and a non-constant vector maps
to output of variance `varOf x / (varOf x + 1e-5)`, which lies within
`1e-5 / varOf x` of `1` (approximately unit variance). -/
theorem layerNorm_spec (x : List R) (hx : x ≠ []) :
    0 < Real.sqrt (varOf x + 1e-5) ∧
    meanOf (layerNorm x) = 0 ∧
    varOf (layerNorm x) = varOf x / (varOf x + 1e-5) ∧
    ((∀ a ∈ x, ∀ b ∈ x, a = b) → layerNorm x = List.replicate x.length 0) ∧
    ((∃ a ∈ x, ∃ b ∈ x, a ≠ b) →
      1 - 1e-5 / varOf x ≤ varOf (layerNorm x) ∧ varOf (layerNorm x) < 1) := by
  have hn : 0 < (x.length : R) := by
    have := List.length_pos.mpr hx
    exact_mod_cast this
  have hvar0 : 0 ≤ varOf x := by
    apply div_nonneg _ hn.le
    apply List.sum_nonneg
    intro a ha
    obtain ⟨v, _, rfl⟩ := List.mem_map.mp ha
    exact sq_nonneg _
  have hpos : 0 < varOf x + 1e-5 := by
    have : (0 : R) < 1e-5 := by norm_num
    linarith
  have hs : 0 < Real.sqrt (varOf x + 1e-5) := Real.sqrt_pos.mpr hpos
  have hs2 : Real.sqrt (varOf x + 1e-5) ^ 2 = varOf x + 1e-5 := Real.sq_sqrt hpos.le
  have hdev : (x.map (fun v => v - meanOf x)).sum = 0 := by
    rw [sum_map_sub_const]
    unfold meanOf
    field_simp
  have hlen : (layerNorm x).length = x.length := by simp [layerNorm]
  have hlnsum : (layerNorm x).sum = 0 := by
    unfold layerNorm
    rw [show (fun v => (v - meanOf x) / Real.sqrt (varOf x + 1e-5)) =
        (fun w => w / Real.sqrt (varOf x + 1e-5)) ∘ (fun v => v - meanOf x) from rfl,
      ← List.map_map, sum_map_div_const, hdev, zero_div]
  have hmean : meanOf (layerNorm x) = 0 := by
    unfold meanOf
    rw [hlnsum, zero_div]
  have hvarln : varOf (layerNorm x) = varOf x / (varOf x + 1e-5) := by
    have hsq : (layerNorm x).map (fun v => (v - meanOf (layerNorm x)) ^ 2) =
        (x.map (fun v => (v - meanOf x) ^ 2)).map
          (fun w => w / (varOf x + 1e-5)) := by
      rw [hmean]
      unfold layerNorm
      rw [List.map_map, List.map_map]
      congr 1
      funext v
      show ((v - meanOf x) / Real.sqrt (varOf x + 1e-5) - 0) ^ 2 =
        (v - meanOf x) ^ 2 / (varOf x + 1e-5)
      rw [sub_zero, div_pow, hs2]
    show ((layerNorm x).map (fun v => (v - meanOf (layerNorm x)) ^ 2)).sum /
        ((layerNorm x).length : R) = varOf x / (varOf x + 1e-5)
    rw [hsq, hlen, sum_map_div_const]
    show (x.map (fun v => (v - meanOf x) ^ 2)).sum / (varOf x + 1e-5) / (x.length : R) =
      varOf x / (varOf x + 1e-5)
    rw [show varOf x = (x.map (fun v => (v - meanOf x) ^ 2)).sum / (x.length : R) from rfl]
    rw [div_div, div_div, mul_comm]
  refine ⟨hs, hmean, hvarln, ?_, ?_⟩
  · intro hconst
    have hhead : x.head hx ∈ x := List.head_mem hx
    have hall : ∀ b ∈ x, b = x.head hx := fun b hb => hconst b hb _ hhead
    have hmu : meanOf x = x.head hx := by
      unfold meanOf
      rw [List.sum_eq_card_nsmul x _ hall, nsmul_eq_mul]
      field_simp
    apply List.eq_replicate_iff.mpr
    refine ⟨hlen, ?_⟩
    intro b hb
    obtain ⟨v, hv, rfl⟩ := List.mem_map.mp hb
    rw [hall v hv, hmu]
    simp
  · rintro ⟨a, ha, b, hb, hab⟩
    have hvpos : 0 < varOf x := by
      rcases lt_or_eq_of_le hvar0 with h | h
      · exact h
      · exfalso
        have hsum0 : (x.map (fun v => (v - meanOf x) ^ 2)).sum = 0 := by
          have := h.symm
          unfold varOf at this
          rcases div_eq_zero_iff.mp this with h0 | h0
          · exact h0
          · exact absurd h0 (ne_of_gt hn)
        have := sum_map_sq_eq_zero x (meanOf x) hsum0
        exact hab ((this a ha).trans (this b hb).symm)
    constructor
    · rw [hvarln]
      have h1 : varOf x / (varOf x + 1e-5) = 1 - 1e-5 / (varOf x + 1e-5) := by
        field_simp
      have h2 : (1e-5 : R) / (varOf x + 1e-5) ≤ 1e-5 / varOf x :=
        div_le_div_of_nonneg_left (by norm_num) hvpos (by linarith)
      linarith
    · rw [hvarln]
      exact (div_lt_one hpos).mpr (by linarith)

/-- Claim C7 witness: `layerNorm [3, 1]` (a concrete non-constant vector). -/
theorem layerNorm_spec_witness :
    ([(3 : R), 1] ≠ []) ∧
    (0 < Real.sqrt (varOf [(3 : R), 1] + 1e-5) ∧
      meanOf (layerNorm [(3 : R), 1]) = 0 ∧
      varOf (layerNorm [(3 : R), 1]) = varOf [(3 : R), 1] / (varOf [(3 : R), 1] + 1e-5) ∧
      ((∀ a ∈ [(3 : R), 1], ∀ b ∈ [(3 : R), 1], a = b) →
        layerNorm [(3 : R), 1] = List.replicate [(3 : R), 1].length 0) ∧
      ((∃ a ∈ [(3 : R), 1], ∃ b ∈ [(3 : R), 1], a ≠ b) →
        1 - 1e-5 / varOf [(3 : R), 1] ≤ varOf (layerNorm [(3 : R), 1]) ∧
          varOf (layerNorm [(3 : R), 1]) < 1)) :=
  ⟨by simp, layerNorm_spec [(3 : R), 1] (by simp)⟩

/-- Length of a raw score row is the sequence length. -/
theorem headRawRow_length (input : List (List R)) (head : AttentionHead) (i : Nat) :
    (headRawRow input head i).length = input.length := by
  simp [headRawRow]

/-- Entry `j` of the raw (masked) score row `i`. -/
theorem headRawRow_getD (input : List (List R)) (head : AttentionHead) (i j : Nat)
    (hj : j < input.length) :
    (headRawRow input head i).getD j 0 =
      if j > i then (-1e9 : R)
      else dotProduct ((headQ input head).getD i []) ((headK input head).getD j []) /
        headScale input head := by
  unfold headRawRow
  rw [getD_range_map _ _ _ _ hj]

/-- Row `i` of the score matrix returned by `attentionHead` is the softmax of
the masked raw row. -/
theorem attentionHead_scores_getD (input : List (List R)) (head : AttentionHead) (i : Nat)
    (hi : i < input.length) :
    (attentionHead input head).1.getD i [] = softmax (headRawRow input head i) := by
  unfold attentionHead
  simp only
  rw [getD_range_map _ _ _ _ hi]

/-- Each per-position output vector of `attentionHead` is as wide as the value
vectors, i.e. has `head.Wv.length` coordinates (the row count of `Wv`). -/
theorem attentionHead_output_length (input : List (List R)) (head : AttentionHead) (i : Nat)
    (hne : input ≠ []) (hi : i < input.length) :
    ((attentionHead input head).2.getD i []).length = head.Wv.length := by
  unfold attentionHead
  simp only
  rw [getD_range_map _ _ _ _ hi, List.length_map, List.length_range]
  unfold headV
  cases input with
  | nil => exact absurd rfl hne
  | cons a t => simp [matVecMul]

/-- The scale divisor of a head equals the square root of the row count of
`Wq` (for non-empty input), because `dk` is read off the produced query
vector, whose length is the number of rows of `Wq`. -/
theorem headScale_eq (input : List (List R)) (head : AttentionHead) (hne : input ≠ []) :
    headScale input head = Real.sqrt (head.Wq.length) := by
  unfold headScale headQ
  cases input with
  | nil => exact absurd rfl hne
  | cons a t => simp [matVecMul]

/-- Claim C2 counterexample: with a two-position input and an all-zero 1×1
head, the post-softmax score at the masked position `(i, j) = (0, 1)` is not
exactly `0` in exact real arithmetic (it is a positive quotient of
exponentials). -/
theorem causal_score_not_zero :
    ((attentionHead [[(0 : R)], [0]] zeroHead).1.getD 0 []).getD 1 0 ≠ 0 := by
  have hrow : 1 < (headRawRow [[(0 : R)], [0]] zeroHead 0).length := by
    rw [headRawRow_length]
    norm_num
  rw [attentionHead_scores_getD _ _ 0 (by norm_num), softmax_getD _ 1 hrow]
  have hS := sumExp_pos (headRawRow [[(0 : R)], [0]] zeroHead 0)
    (by rw [← List.length_pos]; omega)
  exact ne_of_gt (div_pos (Real.exp_pos _) hS)

/-- Claim C2, amended: for `j > i` (both in range) the pre-softmax score is
set to `-1e9`, and the post-softmax score is strictly positive — not exactly
`0` in exact arithmetic — but bounded above by
`exp(-1e9 - score_raw(i, i))`, an astronomically small quantity (the source's
IEEE-double evaluation underflows it to exactly `0`). -/
theorem causal_mask_bound (input : List (List R)) (head : AttentionHead) (i j : Nat)
    (hij : i < j) (hj : j < input.length) :
    (headRawRow input head i).getD j 0 = -1e9 ∧
    0 < ((attentionHead input head).1.getD i []).getD j 0 ∧
    ((attentionHead input head).1.getD i []).getD j 0 ≤
      Real.exp (-1e9 - (headRawRow input head i).getD i 0) := by
  have hi : i < input.length := lt_trans hij hj
  have hjr : j < (headRawRow input head i).length := by rw [headRawRow_length]; exact hj
  have hir : i < (headRawRow input head i).length := by rw [headRawRow_length]; exact hi
  have hrne : headRawRow input head i ≠ [] := by rw [← List.length_pos]; omega
  have hmask : (headRawRow input head i).getD j 0 = -1e9 := by
    rw [headRawRow_getD _ _ _ _ hj, if_pos hij]
  have hS := sumExp_pos (headRawRow input head i) hrne
  have hentry : ((attentionHead input head).1.getD i []).getD j 0 =
      Real.exp ((headRawRow input head i).getD j 0 - listMax (headRawRow input head i)) /
        ((headRawRow input head i).map
          (fun v => Real.exp (v - listMax (headRawRow input head i)))).sum := by
    rw [attentionHead_scores_getD _ _ _ hi, softmax_getD _ _ hjr]
  refine ⟨hmask, ?_, ?_⟩
  · rw [hentry]
    exact div_pos (Real.exp_pos _) hS
  · rw [hentry]
    have hmem : Real.exp ((headRawRow input head i).getD i 0 -
        listMax (headRawRow input head i)) ∈
        (headRawRow input head i).map
          (fun v => Real.exp (v - listMax (headRawRow input head i))) := by
      have := getD_mem ((headRawRow input head i).map
        (fun v => Real.exp (v - listMax (headRawRow input head i)))) i 0
        (by rw [List.length_map]; exact hir)
      rwa [getD_map _ _ _ _ 0 hir] at this
    have hle : Real.exp ((headRawRow input head i).getD i 0 -
        listMax (headRawRow input head i)) ≤
        ((headRawRow input head i).map
          (fun v => Real.exp (v - listMax (headRawRow input head i)))).sum := by
      apply List.single_le_sum _ _ hmem
      intro a ha
      obtain ⟨v, _, rfl⟩ := List.mem_map.mp ha
      exact (Real.exp_pos _).le
    calc Real.exp ((headRawRow input head i).getD j 0 - listMax (headRawRow input head i)) /
          ((headRawRow input head i).map
            (fun v => Real.exp (v - listMax (headRawRow input head i)))).sum
        ≤ Real.exp ((headRawRow input head i).getD j 0 -
            listMax (headRawRow input head i)) /
          Real.exp ((headRawRow input head i).getD i 0 -
            listMax (headRawRow input head i)) :=
          div_le_div_of_nonneg_left (Real.exp_pos _).le (Real.exp_pos _) hle
      _ = Real.exp ((headRawRow input head i).getD j 0 -
            (headRawRow input head i).getD i 0) := by
          rw [← Real.exp_sub]
          ring_nf
      _ = Real.exp (-1e9 - (headRawRow input head i).getD i 0) := by rw [hmask]

/-- Claim C2 witness: the amended bound at the concrete head and input of the
counterexample, positions `i = 0`, `j = 1`. -/
theorem causal_mask_bound_witness :
    ((0 : Nat) < 1 ∧ 1 < [[(0 : R)], [0]].length) ∧
    ((headRawRow [[(0 : R)], [0]] zeroHead 0).getD 1 0 = -1e9 ∧
      0 < ((attentionHead [[(0 : R)], [0]] zeroHead).1.getD 0 []).getD 1 0 ∧
      ((attentionHead [[(0 : R)], [0]] zeroHead).1.getD 0 []).getD 1 0 ≤
        Real.exp (-1e9 - (headRawRow [[(0 : R)], [0]] zeroHead 0).getD 0 0)) :=
  ⟨⟨by norm_num, by norm_num⟩, causal_mask_bound _ _ 0 1 (by norm_num) (by norm_num)⟩

/-- Claim C3 counterexample: a head whose projection matrices have two rows
and one column (projection width `headDim = 1`), run on one position `[1, 0]`.
The unmasked raw score at `(0, 0)` is `1 / sqrt 2` (the divisor is the square
root of the produced query length `2`), not `1 / sqrt headDim = 1`. -/
theorem raw_score_scale_mismatch :
    (headRawRow [[(1 : R), 0]] colHead 0).getD 0 0 ≠
      dotProduct ((headQ [[(1 : R), 0]] colHead).getD 0 [])
          ((headK [[(1 : R), 0]] colHead).getD 0 []) /
        Real.sqrt ((colHead.Wq.headD []).length) := by
  have hQ : headQ [[(1 : R), 0]] colHead = [[1, 0]] := by
    simp [headQ, colHead, matVecMul, dotProduct]
  have hK : headK [[(1 : R), 0]] colHead = [[1, 0]] := by
    simp [headK, colHead, matVecMul, dotProduct]
  have hdot : dotProduct [(1 : R), 0] [(1 : R), 0] = 1 := by
    simp [dotProduct]
  have hscale : headScale [[(1 : R), 0]] colHead = Real.sqrt 2 := by
    rw [headScale_eq _ _ (by simp)]
    norm_num [colHead]
  rw [headRawRow_getD _ _ 0 0 (by norm_num), if_neg (by omega), hQ, hK, hscale]
  simp only [List.getD_cons_zero, hdot]
  rw [show (colHead.Wq.headD []).length = 1 from rfl]
  rw [Nat.cast_one, Real.sqrt_one]
  have h2 : (1 : R) < Real.sqrt 2 := by
    have := Real.sqrt_lt_sqrt (by norm_num : (0 : R) ≤ 1) (by norm_num : (1 : R) < 2)
    rwa [Real.sqrt_one] at this
  have : (1 : R) / Real.sqrt 2 < 1 := by
    rw [div_lt_one (by positivity)]
    exact h2
  simp only [div_one]
  linarith

/-- Claim C3, amended: for an in-bounds unmasked pair `j ≤ i` on non-empty
input, the raw pre-softmax score equals `(Q_i · K_j) / sqrt dk` where `dk` is
the length of the produced query vectors, i.e. the ROW count of `Wq`
(`embedDim` for initialized weights) — not the projection width
`headDim = floor(embedDim / numHeads)` of the claim. -/
theorem raw_score_formula (input : List (List R)) (head : AttentionHead) (i j : Nat)
    (hne : input ≠ []) (hij : j ≤ i) (hj : j < input.length) :
    (headRawRow input head i).getD j 0 =
      dotProduct ((headQ input head).getD i []) ((headK input head).getD j []) /
        Real.sqrt (head.Wq.length) := by
  rw [headRawRow_getD _ _ _ _ hj, if_neg (not_lt.mpr hij), headScale_eq _ _ hne]

/-- Claim C3 witness: the amended formula at the counterexample's head and
input, pair `(i, j) = (0, 0)`. -/
theorem raw_score_formula_witness :
    ([[(1 : R), 0]] ≠ [] ∧ (0 : Nat) ≤ 0 ∧ 0 < [[(1 : R), 0]].length) ∧
    (headRawRow [[(1 : R), 0]] colHead 0).getD 0 0 =
      dotProduct ((headQ [[(1 : R), 0]] colHead).getD 0 [])
          ((headK [[(1 : R), 0]] colHead).getD 0 []) /
        Real.sqrt (colHead.Wq.length) :=
  ⟨⟨by simp, le_refl 0, by norm_num⟩,
    raw_score_formula [[(1 : R), 0]] colHead 0 0 (by simp) (le_refl 0) (by norm_num)⟩

/-- Claim C4 counterexample: the same one-column head run on one position
produces an output vector of width `2` (the row count of `Wv`), not
`headDim = 1` (the projection width of `Wv`), so heads are not
`headDim`-wide. -/
theorem head_output_width_mismatch :
    ((attentionHead [[(1 : R), 0]] colHead).2.getD 0 []).length ≠
      (colHead.Wv.headD []).length := by
  rw [attentionHead_output_length _ _ 0 (by simp) (by norm_num)]
  rw [show colHead.Wv.length = 2 from rfl, show (colHead.Wv.headD []).length = 1 from rfl]
  norm_num

/-- Claim C4, amended: each head's output vector is `Wv.length` wide (the row
count, `embedDim` for initialized weights), and the combined attention output
at dimension `d` is the unweighted average over heads of each head's value at
dimension `d % width`; when every head output is as wide as the layer input
(as holds for initialized weights, where both are `embedDim`), the wrap index
`d % width` is just `d`, an unweighted average with no wrapping. -/
theorem head_combine_average (input : List (List R)) (head : AttentionHead)
    (current : List (List R)) (headOutputs : List (List (List R))) (i d : Nat)
    (hne : input ≠ []) (hi : i < input.length)
    (hw : ∀ ho ∈ headOutputs, (ho.getD i []).length = (current.headD []).length)
    (hd : d < (current.headD []).length) :
    ((attentionHead input head).2.getD i []).length = head.Wv.length ∧
    (combineHeads current headOutputs i).getD d 0 =
      (headOutputs.map (fun ho => (ho.getD i []).getD d 0)).sum /
        (headOutputs.length : R) := by
  constructor
  · exact attentionHead_output_length input head i hne hi
  · unfold combineHeads
    rw [getD_range_map _ _ _ _ hd]
    have hcongr : headOutputs.map (fun headOut =>
        ((headOut.getD i []).getD (d % (headOut.getD i []).length) 0) /
          (headOutputs.length : R)) =
        headOutputs.map (fun ho => ((ho.getD i []).getD d 0) / (headOutputs.length : R)) := by
      apply List.map_congr_left
      intro ho hho
      rw [hw ho hho, Nat.mod_eq_of_lt hd]
    rw [hcongr]
    rw [show (fun ho => ((ho.getD i []).getD d 0) / (headOutputs.length : R)) =
        (fun w => w / (headOutputs.length : R)) ∘ (fun ho : List (List R) =>
          (ho.getD i []).getD d 0) from rfl, ← List.map_map, sum_map_div_const]

/-- Claim C4 witness: one head output `[[5, 7]]` over the input `[[1, 0]]`
with layer input `[[1, 0]]`, at position `0`, dimension `1`. -/
theorem head_combine_average_witness :
    ([[(1 : R), 0]] ≠ [] ∧ 0 < [[(1 : R), 0]].length ∧
      (∀ ho ∈ [[[(5 : R), 7]]], (ho.getD 0 []).length = ([[(1 : R), 0]].headD []).length) ∧
      1 < ([[(1 : R), 0]].headD []).length) ∧
    (((attentionHead [[(1 : R), 0]] colHead).2.getD 0 []).length = colHead.Wv.length ∧
      (combineHeads [[(1 : R), 0]] [[[(5 : R), 7]]] 0).getD 1 0 =
        ([[[(5 : R), 7]]].map (fun ho => (ho.getD 0 []).getD 1 0)).sum /
          (([[[(5 : R), 7]]].length : Nat) : R)) :=
  ⟨⟨by simp, by norm_num, by intro ho hho; simp at hho; subst hho; rfl, by norm_num⟩,
    head_combine_average [[(1 : R), 0]] colHead [[(1 : R), 0]] [[[(5 : R), 7]]] 0 1
      (by simp) (by norm_num)
      (by intro ho hho; simp at hho; subst hho; rfl) (by norm_num)⟩

/-! Concrete evaluation lemmas used by witnesses and counterexamples. -/

/-- Softmax of a singleton is `[1]`. -/
theorem softmax_single (a : R) : softmax [a] = [1] := by
  simp [softmax, listMax]

/-- Softmax of a constant pair is the uniform distribution. -/
theorem softmax_pair_same (a : R) : softmax [a, a] = [1 / 2, 1 / 2] := by
  simp [softmax, listMax]
  norm_num

/-- Layer normalization of a singleton is `[0]`. -/
theorem layerNorm_single (a : R) : layerNorm [a] = [0] := by
  simp [layerNorm, meanOf]

/-- Layer normalization of a constant pair is `[0, 0]`. -/
theorem layerNorm_pair_same (a : R) : layerNorm [a, a] = [0, 0] := by
  have hm : meanOf [a, a] = a := by
    unfold meanOf
    simp only [List.sum_cons, List.sum_nil, List.length_cons, List.length_nil]
    push_cast
    ring
  simp [layerNorm, hm]

/-- Layer normalization of `[3, 1]` (mean `2`, variance `1`). -/
theorem layerNorm_31 : layerNorm [(3 : R), 1] =
    [1 / Real.sqrt (1 + 1e-5), -(1 / Real.sqrt (1 + 1e-5))] := by
  have hm : meanOf [(3 : R), 1] = 2 := by
    simp [meanOf]
    norm_num
  have hv : varOf [(3 : R), 1] = 1 := by
    simp [varOf, hm]
    norm_num
  unfold layerNorm
  rw [hm, hv]
  simp only [List.map_cons, List.map_nil, List.cons.injEq, and_true]
  constructor
  · norm_num
  · rw [show (1 : R) - 2 = -1 by norm_num, neg_div]

/-- Evaluation of `List.range 1`. -/
theorem range_one_eval : List.range 1 = [0] := by decide

/-- Evaluation of `List.range 2`. -/
theorem range_two_eval : List.range 2 = [0, 1] := by decide

/-- Attention head evaluation: one position `[0]`, zero 1×1 head. -/
theorem attnHead_z1 : attentionHead [[(0 : R)]] zeroHead = ([[1]], [[0]]) := by
  unfold attentionHead headRawRow headV headQ headK headScale
  simp [zeroHead, matVecMul, dotProduct, softmax_single, range_one_eval]

/-- Layer evaluation: one position `[0]`, all-zero layer. -/
theorem layerForward_z1 : layerForward [[(0 : R)]] zeroLayer = (⟨[[[1]]], [[0]], [[0]]⟩, [[0]]) := by
  unfold layerForward
  simp [zeroLayer, attnHead_z1, combineHeads, vecAdd, feedForward, relu, matVecMul,
    dotProduct, layerNorm_single, range_one_eval]

/-- Forward evaluation: token `[0]` through the all-zero one-layer weights. -/
theorem forward_z1 : forward [0] zeroW (some 0) =
    { inputTokens := [0]
      embeddings := [[0]]
      layerOutputs := [⟨[[[1]]], [[0]], [[0]]⟩]
      logits := [0]
      probabilities := [1]
      predictedToken := 0
      loss := some 0
      targetToken := some 0 } := by
  have hrun : runLayers [[(0 : R)]] [zeroLayer] = ([⟨[[[1]]], [[0]], [[0]]⟩], [[0]]) := by
    simp [runLayers, layerForward_z1]
  unfold forward finalHidden embedLookup
  simp [zeroW, hrun, matVecMul, dotProduct, vecAdd, softmax_single, argmax, argmaxFrom,
    crossEntropyLoss]
  norm_num

/-- Softmax of `[0, -1e9]` (an unmasked and a masked score). -/
theorem softmax_zero_neg : softmax [(0 : R), -1e9] =
    [1 / (1 + Real.exp (-1e9)), Real.exp (-1e9) / (1 + Real.exp (-1e9))] := by
  unfold softmax listMax
  simp only [List.foldl_cons, List.foldl_nil]
  rw [max_eq_left (by norm_num : (-1e9 : R) ≤ 0)]
  simp [Real.exp_zero]

/-- Attention head evaluation: two positions `[0], [0]`, zero 1×1 head. -/
theorem attnHead_z2 : attentionHead [[(0 : R)], [0]] zeroHead =
    ([[1 / (1 + Real.exp (-1e9)), Real.exp (-1e9) / (1 + Real.exp (-1e9))],
      [1 / 2, 1 / 2]],
     [[0], [0]]) := by
  unfold attentionHead headRawRow headV headQ headK headScale
  simp [zeroHead, matVecMul, dotProduct, range_two_eval, softmax_zero_neg,
    softmax_pair_same]

/-- Layer evaluation: two positions `[0], [0]`, all-zero layer. -/
theorem layerForward_z2 : layerForward [[(0 : R)], [0]] zeroLayer =
    (⟨[[[1 / (1 + Real.exp (-1e9)), Real.exp (-1e9) / (1 + Real.exp (-1e9))],
        [1 / 2, 1 / 2]]],
      [[0], [0]], [[0], [0]]⟩,
     [[0], [0]]) := by
  unfold layerForward
  simp [zeroLayer, attnHead_z2, combineHeads, vecAdd, feedForward, relu, matVecMul,
    dotProduct, layerNorm_single, range_one_eval, range_two_eval]

/-- Forward evaluation: tokens `[0, 0]` through the all-zero one-layer weights. -/
theorem forward_z2 : forward [0, 0] zeroW (some 0) =
    { inputTokens := [0, 0]
      embeddings := [[0], [0]]
      layerOutputs := [⟨[[[1 / (1 + Real.exp (-1e9)), Real.exp (-1e9) / (1 + Real.exp (-1e9))],
          [1 / 2, 1 / 2]]],
        [[0], [0]], [[0], [0]]⟩]
      logits := [0]
      probabilities := [1]
      predictedToken := 0
      loss := some 0
      targetToken := some 0 } := by
  have hrun : runLayers [[(0 : R)], [0]] [zeroLayer] =
      ([⟨[[[1 / (1 + Real.exp (-1e9)), Real.exp (-1e9) / (1 + Real.exp (-1e9))],
          [1 / 2, 1 / 2]]],
        [[0], [0]], [[0], [0]]⟩],
       [[0], [0]]) := by
    simp [runLayers, layerForward_z2]
  unfold forward finalHidden embedLookup
  simp [zeroW, hrun, matVecMul, dotProduct, vecAdd, softmax_single, argmax, argmaxFrom,
    crossEntropyLoss]
  norm_num

/-- Attention head evaluation: one position `[0, 0]`, zero 2×2 head. -/
theorem attnHead_b31 : attentionHead [[(0 : R), 0]] zeroHead2 = ([[1]], [[0, 0]]) := by
  unfold attentionHead headRawRow headV headQ headK headScale
  simp [zeroHead2, matVecMul, dotProduct, softmax_single, range_one_eval, range_two_eval]

/-- Layer evaluation: one position `[0, 0]` through the `[3, 1]`-bias layer. -/
theorem layerForward_b31 : layerForward [[(0 : R), 0]] bias31Layer =
    (⟨[[[1]]], [[0, 0]], [[3, 1]]⟩,
     [[1 / Real.sqrt (1 + 1e-5), -(1 / Real.sqrt (1 + 1e-5))]]) := by
  unfold layerForward
  simp only [bias31Layer, List.map_cons, List.map_nil, attnHead_b31]
  simp [combineHeads, vecAdd, feedForward, relu, matVecMul, dotProduct,
    layerNorm_pair_same, range_one_eval, range_two_eval]
  rw [layerNorm_31]
  simp [one_div]

/-- Layer-loop evaluation for the `[3, 1]`-bias weights. -/
theorem runLayers_b31 : runLayers [[(0 : R), 0]] [bias31Layer] =
    ([⟨[[[1]]], [[0, 0]], [[3, 1]]⟩],
     [[1 / Real.sqrt (1 + 1e-5), -(1 / Real.sqrt (1 + 1e-5))]]) := by
  simp [runLayers, layerForward_b31]

/-- The hidden vector projected by `forward` for the `[3, 1]`-bias weights:
the layer-normed residual, not the raw feed-forward output `[3, 1]`. -/
theorem finalHidden_b31 : finalHidden [0] bias31W =
    [1 / Real.sqrt (1 + 1e-5), -(1 / Real.sqrt (1 + 1e-5))] := by
  unfold finalHidden embedLookup
  simp [bias31W, runLayers_b31]

/-- Forward evaluation: token `[0]` through the `[3, 1]`-bias weights. -/
theorem forward_b31 : forward [0] bias31W (some 0) =
    { inputTokens := [0]
      embeddings := [[0, 0]]
      layerOutputs := [⟨[[[1]]], [[0, 0]], [[3, 1]]⟩]
      logits := [0, 0]
      probabilities := [1 / 2, 1 / 2]
      predictedToken := 0
      loss := some (-Real.log (1 / 2))
      targetToken := some 0 } := by
  have hlog : vecAdd (matVecMul [[(0 : R), 0], [0, 0]]
      [1 / Real.sqrt (1 + 1e-5), -(1 / Real.sqrt (1 + 1e-5))]) [(0 : R), 0] = [0, 0] := by
    simp [matVecMul, dotProduct, vecAdd]
  have hloss : crossEntropyLoss [(1 : R) / 2, 1 / 2] 0 = -Real.log (1 / 2) := by
    unfold crossEntropyLoss
    rw [List.getD_cons_zero, max_eq_left (by norm_num : (1e-10 : R) ≤ 1 / 2)]
  have hargmax : argmax [(1 : R) / 2, 1 / 2] = 0 := by
    have h1 : (-1 : R) < 1 / 2 := by norm_num
    have h2 : ¬((1 : R) / 2 < 1 / 2) := by norm_num
    simp [argmax, argmaxFrom, h1, h2]
  unfold forward
  simp only [finalHidden_b31]
  simp only [embedLookup, bias31W, List.map_cons, List.map_nil, List.getD_cons_zero]
  rw [runLayers_b31, hlog, softmax_pair_same]
  have hargmax2 : argmax [(2 : R)⁻¹, 2⁻¹] = 0 := by
    rw [show ((2 : R)⁻¹) = 1 / 2 by norm_num]
    exact hargmax
  have hloss2 : crossEntropyLoss [(2 : R)⁻¹, 2⁻¹] 0 = Real.log 2 := by
    rw [show ((2 : R)⁻¹) = 1 / 2 by norm_num, hloss,
      show ((1 : R) / 2) = 2⁻¹ by norm_num, Real.log_inv, neg_neg]
  simp [hloss2, hargmax2]

/-- The `lastHidden` read of `trainStep` on the all-zero weights, one token. -/
theorem lastFfn_z1 : lastFfnHidden (forward [0] zeroW (some 0)) [0] = some [0] := by
  rw [forward_z1]
  unfold lastFfnHidden getAt?
  norm_num

/-- The `lastHidden` read of `trainStep` on the all-zero weights, two tokens. -/
theorem lastFfn_z2 : lastFfnHidden (forward [0, 0] zeroW (some 0)) [0, 0] = some [0] := by
  rw [forward_z2]
  unfold lastFfnHidden getAt?
  norm_num

/-- The `lastHidden` read of `trainStep` on the `[3, 1]`-bias weights: the raw
feed-forward output `[3, 1]`, not the normalized vector `forward` projected. -/
theorem lastFfn_b31 : lastFfnHidden (forward [0] bias31W (some 0)) [0] = some [3, 1] := by
  rw [forward_b31]
  unfold lastFfnHidden getAt?
  norm_num

/-- Training-step evaluation: all-zero weights, one token, oracle `czero`. -/
theorem trainStep_z1 : trainStep [0] 0 zeroW 1 czero =
    some ⟨⟨[[-(1 / 20)]], [zeroLayer], ⟨[[0]], [0]⟩⟩, 0, forward [0] zeroW (some 0)⟩ := by
  simp only [trainStep]
  rw [lastFfn_z1]
  simp only [Option.some.injEq]
  have hW : updW zeroW.output.W (forward [0] zeroW (some 0)).probabilities [0] 0 1 =
      [[0]] := by
    rw [forward_z1]
    simp [updW, zeroW, range_one_eval]
  have hb : updB zeroW.output.b (forward [0] zeroW (some 0)).probabilities 0 1 = [0] := by
    rw [forward_z1]
    simp [updB, zeroW, range_one_eval]
  have hemb : updateEmbRows [0] zeroW.embeddings 1 czero 0 = [[-(1 / 20)]] := by
    simp [updateEmbRows, zeroW, czero, range_one_eval]
    norm_num
  have hloss : (forward [0] zeroW (some 0)).loss.getD 0 = 0 := by
    rw [forward_z1]
    rfl
  rw [hW, hb, hemb, hloss]
  simp [zeroW]

/-- Training-step evaluation: all-zero weights, duplicated token `[0, 0]`,
oracle `crand9` (every draw `0.9`).  The embedding row is perturbed twice,
once per occurrence, accumulating `2 · 1 · 0.4 · 0.1 = 0.08 = 2/25`. -/
theorem trainStep_z2 : trainStep [0, 0] 0 zeroW 1 crand9 =
    some ⟨⟨[[2 / 25]], [zeroLayer], ⟨[[0]], [0]⟩⟩, 0, forward [0, 0] zeroW (some 0)⟩ := by
  simp only [trainStep]
  rw [lastFfn_z2]
  simp only [Option.some.injEq]
  have hW : updW zeroW.output.W (forward [0, 0] zeroW (some 0)).probabilities [0] 0 1 =
      [[0]] := by
    rw [forward_z2]
    simp [updW, zeroW, range_one_eval]
  have hb : updB zeroW.output.b (forward [0, 0] zeroW (some 0)).probabilities 0 1 = [0] := by
    rw [forward_z2]
    simp [updB, zeroW, range_one_eval]
  have hemb : updateEmbRows [0, 0] zeroW.embeddings 1 crand9 0 = [[2 / 25]] := by
    simp [updateEmbRows, zeroW, crand9, range_one_eval]
    norm_num
  have hloss : (forward [0, 0] zeroW (some 0)).loss.getD 0 = 0 := by
    rw [forward_z2]
    rfl
  rw [hW, hb, hemb, hloss]
  simp [zeroW]

/-- Training-step evaluation: `[3, 1]`-bias weights, one token, oracle `czero`.
The output-weight update uses the raw feed-forward output `[3, 1]` as
`lastHidden`, so `W[0][0]` jumps to `3/2`. -/
theorem trainStep_b31 : trainStep [0] 0 bias31W 1 czero =
    some ⟨⟨[[-(1 / 20), -(1 / 20)], [0, 0]], [bias31Layer],
        ⟨[[3 / 2, -(3 / 2)], [1 / 2, -(1 / 2)]], [1 / 2, -(1 / 2)]⟩⟩,
      -Real.log (1 / 2), forward [0] bias31W (some 0)⟩ := by
  simp only [trainStep]
  rw [lastFfn_b31]
  simp only [Option.some.injEq]
  have hW : updW bias31W.output.W (forward [0] bias31W (some 0)).probabilities [3, 1] 0 1 =
      [[3 / 2, -(3 / 2)], [1 / 2, -(1 / 2)]] := by
    rw [forward_b31]
    simp [updW, bias31W, range_two_eval]
    norm_num
  have hb : updB bias31W.output.b (forward [0] bias31W (some 0)).probabilities 0 1 =
      [1 / 2, -(1 / 2)] := by
    rw [forward_b31]
    simp [updB, bias31W, range_two_eval]
    norm_num
  have hemb : updateEmbRows [0] bias31W.embeddings 1 czero 0 =
      [[-(1 / 20), -(1 / 20)], [0, 0]] := by
    simp [updateEmbRows, bias31W, czero, range_two_eval]
    norm_num
  have hloss : (forward [0] bias31W (some 0)).loss.getD 0 = -Real.log (1 / 2) := by
    rw [forward_b31]
    rfl
  rw [hW, hb, hemb, hloss]
  simp [bias31W]

/-- Entry `v` of the updated output bias, in bounds of both `b` and `probs`. -/
theorem updB_getD (b probs : List R) (tgt : Nat) (lr : R) (v : Nat) (hv : v < b.length)
    (hvp : v < probs.length) :
    (updB b probs tgt lr).getD v 0 =
      b.getD v 0 + lr * ((if v = tgt then 1 else 0) - probs.getD v 0) := by
  unfold updB
  rw [getD_range_map _ _ _ _ hv, if_pos hvp]

/-- Entry `(d, v)` of the updated output weight matrix, in bounds. -/
theorem updW_getD (W : List (List R)) (probs lastHidden : List R) (tgt : Nat) (lr : R)
    (d v : Nat) (hd : d < W.length) (hdl : d < lastHidden.length)
    (hv : v < (W.getD d []).length) (hvp : v < probs.length) :
    ((updW W probs lastHidden tgt lr).getD d []).getD v 0 =
      (W.getD d []).getD v 0 +
        lr * ((if v = tgt then 1 else 0) - probs.getD v 0) * lastHidden.getD d 0 := by
  unfold updW
  rw [getD_range_map _ _ _ _ hd, if_pos hdl, getD_range_map _ _ _ _ hv, if_pos hvp]

/-- Claim C1 counterexample: on the `[3, 1]`-bias weights with one input
token, learning rate `1` and target `0`, the updated `output.W[0][0]` is
`3/2` — computed from the raw feed-forward output `[3, 1]` — and differs from
the claim's prediction `old + lr · error · lastHidden[0]` taken with
`lastHidden` the vector `forward` actually projects (the layer-normed
residual `finalHidden`). -/
theorem trainStep_lastHidden_mismatch :
    (trainStep [0] 0 bias31W 1 czero).map (fun r =>
        (r.newWeights.output.W.getD 0 []).getD 0 0) ≠
      some ((bias31W.output.W.getD 0 []).getD 0 0 +
        1 * ((if (0 : Nat) = 0 then 1 else 0) -
          (forward [0] bias31W (some 0)).probabilities.getD 0 0) *
          (finalHidden [0] bias31W).getD 0 0) := by
  rw [trainStep_b31, forward_b31, finalHidden_b31]
  simp only [Option.map_some', List.getD_cons_zero, Option.some.injEq, bias31W]
  have hs1 : (1 : R) ≤ Real.sqrt (1 + 1e-5) := by
    rw [show (1 : R) = Real.sqrt 1 by rw [Real.sqrt_one]]
    exact Real.sqrt_le_sqrt (by norm_num)
  have hfrac : (1 : R) / Real.sqrt (1 + 1e-5) ≤ 1 := by
    rw [div_le_one (by positivity)]
    exact hs1
  have hnn : (0 : R) ≤ 1 / Real.sqrt (1 + 1e-5) := by positivity
  intro h
  rw [Option.some.injEq, if_true] at h
  nlinarith [hfrac, hnn]

/-- Claim C1, amended: wherever `trainStep` succeeds, for every in-bounds
vocabulary index `v < probabilities.length` and hidden dimension
`d < lastHidden.length`, the output update adds `lr · error_v` to `b[v]` and
`lr · error_v · lastHidden[d]` to `W[d][v]`, where `lastHidden` is the RAW
feed-forward output of the last transformer layer at the final position
(`layerOutputs[last].ffnOutput[last]`) — taken BEFORE the second residual
connection and layer normalization, and therefore in general NOT the vector
`forward` projects through `output.W`/`output.b` to form the logits. -/
theorem trainStep_output_update (toks : List Nat) (tgt : Nat) (w : Weights) (lr : R)
    (rand : Nat → R) (lh : List R) (v d : Nat)
    (hlh : lastFfnHidden (forward toks w (some tgt)) toks = some lh)
    (hv : v < (forward toks w (some tgt)).probabilities.length)
    (hvb : v < w.output.b.length)
    (hd : d < lh.length) (hdW : d < w.output.W.length)
    (hvW : v < (w.output.W.getD d []).length) :
    (trainStep toks tgt w lr rand).map (fun r =>
        (r.newWeights.output.b.getD v 0, (r.newWeights.output.W.getD d []).getD v 0)) =
      some (w.output.b.getD v 0 +
          lr * ((if v = tgt then 1 else 0) -
            (forward toks w (some tgt)).probabilities.getD v 0),
        (w.output.W.getD d []).getD v 0 +
          lr * ((if v = tgt then 1 else 0) -
            (forward toks w (some tgt)).probabilities.getD v 0) * lh.getD d 0) := by
  simp only [trainStep]
  rw [hlh]
  simp only [Option.map_some', Option.some.injEq]
  rw [updB_getD _ _ _ _ _ hvb hv, updW_getD _ _ _ _ _ _ _ hdW hd hvW hv]

/-- Claim C1 witness: the amended update law at the all-zero weights, one
token, `v = d = 0`. -/
theorem trainStep_output_update_witness :
    (lastFfnHidden (forward [0] zeroW (some 0)) [0] = some [0] ∧
      0 < (forward [0] zeroW (some 0)).probabilities.length ∧
      0 < zeroW.output.b.length ∧ 0 < [(0 : R)].length ∧
      0 < zeroW.output.W.length ∧ 0 < (zeroW.output.W.getD 0 []).length) ∧
    (trainStep [0] 0 zeroW 1 czero).map (fun r =>
        (r.newWeights.output.b.getD 0 0, (r.newWeights.output.W.getD 0 []).getD 0 0)) =
      some (zeroW.output.b.getD 0 0 +
          1 * ((if (0 : Nat) = 0 then 1 else 0) -
            (forward [0] zeroW (some 0)).probabilities.getD 0 0),
        (zeroW.output.W.getD 0 []).getD 0 0 +
          1 * ((if (0 : Nat) = 0 then 1 else 0) -
            (forward [0] zeroW (some 0)).probabilities.getD 0 0) * ([(0 : R)].getD 0 0)) :=
  ⟨⟨lastFfn_z1, by rw [forward_z1]; norm_num, by simp [zeroW], by norm_num,
      by simp [zeroW], by simp [zeroW]⟩,
    trainStep_output_update [0] 0 zeroW 1 czero [0] 0 0 lastFfn_z1
      (by rw [forward_z1]; norm_num) (by simp [zeroW]) (by norm_num)
      (by simp [zeroW]) (by simp [zeroW])⟩

/-- Claim C5: whenever `trainStep` returns, the attention-head parameters
(`Wq`, `Wk`, `Wv`) and feed-forward parameters (`W1`, `b1`, `W2`, `b2`) of
every layer of `newWeights` are structurally equal to the input's — the whole
`layers` tree is carried over unchanged; only embeddings and output layer are
updated.  (Non-mutation of the input and absence of storage sharing are
automatic under the value semantics of this embedding.) -/
theorem trainStep_preserves_layers (toks : List Nat) (tgt : Nat) (w : Weights) (lr : R)
    (rand : Nat → R) :
    (trainStep toks tgt w lr rand).map (fun r => r.newWeights.layers) =
      (trainStep toks tgt w lr rand).map (fun _ => w.layers) := by
  simp only [trainStep]
  cases lastFfnHidden (forward toks w (some tgt)) toks with
  | none => rfl
  | some lh => rfl

/-- Claim C9: the forward pass is deterministic and free of randomness — the
`result` a training step reports is exactly `forward` of its inputs, and the
`result`, `loss` and the updated output layer do not depend on the
`Math.random()` oracle (only the embedding perturbation does). -/
theorem forward_deterministic_no_randomness (toks : List Nat) (tgt : Nat) (w : Weights)
    (lr : R) (r1 r2 : Nat → R) :
    (trainStep toks tgt w lr r1).map TrainOut.result =
      (trainStep toks tgt w lr r1).map (fun _ => forward toks w (some tgt)) ∧
    (trainStep toks tgt w lr r1).map TrainOut.result =
      (trainStep toks tgt w lr r2).map TrainOut.result ∧
    (trainStep toks tgt w lr r1).map TrainOut.loss =
      (trainStep toks tgt w lr r2).map TrainOut.loss ∧
    (trainStep toks tgt w lr r1).map (fun r => r.newWeights.output) =
      (trainStep toks tgt w lr r2).map (fun r => r.newWeights.output) := by
  refine ⟨?_, ?_, ?_, ?_⟩ <;>
  · simp only [trainStep]
    cases lastFfnHidden (forward toks w (some tgt)) toks with
    | none => rfl
    | some lh => rfl

/-- Claim C10: on weights with an empty `layers` sequence (`numLayers = 0`,
permitted by the configuration contract) and non-empty input, `trainStep`
fails before producing a result (its `lastHidden` read indexes
`layerOutputs[-1]`), while `forward` itself succeeds and projects the raw
embedding of the last input token through the output layer. -/
theorem trainStep_empty_layers_fails (toks : List Nat) (tgt : Nat) (w : Weights) (lr : R)
    (rand : Nat → R) (hlayers : w.layers = []) (hne : toks ≠ []) :
    trainStep toks tgt w lr rand = none ∧
    (forward toks w (some tgt)).logits =
      vecAdd (matVecMul w.output.W
        (w.embeddings.getD (toks.getD (toks.length - 1) 0) [])) w.output.b := by
  have hlo : (forward toks w (some tgt)).layerOutputs = [] := by
    unfold forward
    simp [hlayers, runLayers]
  have hnone : lastFfnHidden (forward toks w (some tgt)) toks = none := by
    unfold lastFfnHidden
    rw [hlo]
    simp [getAt?]
  have hlt : toks.length - 1 < toks.length := by
    cases toks with
    | nil => exact absurd rfl hne
    | cons a rest => simp
  have hfh : finalHidden toks w = w.embeddings.getD (toks.getD (toks.length - 1) 0) [] := by
    unfold finalHidden embedLookup
    rw [hlayers]
    simp only [runLayers]
    rw [getD_map _ _ _ _ 0 hlt]
  constructor
  · simp only [trainStep]
    rw [hnone]
  · have hlogit : (forward toks w (some tgt)).logits =
        vecAdd (matVecMul w.output.W (finalHidden toks w)) w.output.b := rfl
    rw [hlogit, hfh]

/-- Claim C10 witness: concrete zero-layer weights and the one-token input
`[0]`: the training step is rejected while the forward pass projects the raw
embedding row. -/
theorem trainStep_empty_layers_fails_witness :
    (zeroLayersW.layers = [] ∧ ([0] : List Nat) ≠ []) ∧
    (trainStep [0] 0 zeroLayersW 1 czero = none ∧
      (forward [0] zeroLayersW (some 0)).logits =
        vecAdd (matVecMul zeroLayersW.output.W
          (zeroLayersW.embeddings.getD (([0] : List Nat).getD (([0] : List Nat).length - 1) 0) []))
          zeroLayersW.output.b) :=
  ⟨⟨rfl, by simp⟩, trainStep_empty_layers_fails [0] 0 zeroLayersW 1 czero rfl (by simp)⟩

/-- Setting one list entry leaves the other entries unchanged. -/
theorem getD_set_ne {α : Type} (l : List α) (i j : Nat) (a d : α) (hij : i ≠ j) :
    (l.set i a).getD j d = l.getD j d := by
  simp [List.getD, List.getElem?_set_ne hij]

/-- Setting an in-bounds list entry stores the new value there. -/
theorem getD_set_self {α : Type} (l : List α) (i : Nat) (a d : α) (hi : i < l.length) :
    (l.set i a).getD i d = a := by
  simp [List.getD, List.getElem?_set_self, hi]

/-- The embedding update never touches the row of a token that does not occur
in `inputTokens`. -/
theorem updateEmbRows_not_mem (toks : List Nat) (emb : List (List R)) (lr : R)
    (rand : Nat → R) (k : Nat) (t : Nat) (ht : t ∉ toks) :
    (updateEmbRows toks emb lr rand k).getD t [] = emb.getD t [] := by
  induction toks generalizing emb k with
  | nil => rfl
  | cons a rest ih =>
    have hne : a ≠ t := fun h => ht (h ▸ List.mem_cons_self a rest)
    have ht2 : t ∉ rest := fun h => ht (List.mem_cons_of_mem _ h)
    simp only [updateEmbRows]
    rw [ih _ _ ht2, getD_set_ne _ _ _ _ _ hne]

/-- For a duplicate-free token list, the row of a token occurring in it is
perturbed exactly once: each coordinate receives one
`lr · (rand m − 0.5) · 0.1` adjustment from a single oracle draw `m`. -/
theorem updateEmbRows_mem_once (toks : List Nat) (t d : Nat) (lr : R) (rand : Nat → R) :
    ∀ (emb : List (List R)) (k : Nat), toks.Nodup → t ∈ toks → t < emb.length →
      d < (emb.getD t []).length →
      ∃ m : Nat, ((updateEmbRows toks emb lr rand k).getD t []).getD d 0 =
        (emb.getD t []).getD d 0 + lr * (rand m - 0.5) * 0.1 := by
  induction toks with
  | nil =>
    intro emb k _ ht _ _
    exact absurd ht (List.not_mem_nil t)
  | cons a rest ih =>
    intro emb k hnd ht hlen hd
    by_cases hat : a = t
    · subst hat
      have hnotin : a ∉ rest := (List.nodup_cons.mp hnd).1
      simp only [updateEmbRows]
      rw [updateEmbRows_not_mem rest _ lr rand _ a hnotin,
        getD_set_self _ _ _ _ hlen, getD_range_map _ _ _ _ hd]
      exact ⟨k + d, rfl⟩
    · have htr : t ∈ rest := by
        rcases List.mem_cons.mp ht with h | h
        · exact absurd h.symm hat
        · exact h
      simp only [updateEmbRows]
      obtain ⟨m, hm⟩ := ih (emb.set a ((List.range (emb.getD a []).length).map (fun e =>
          (emb.getD a []).getD e 0 + lr * (rand (k + e) - 0.5) * 0.1)))
        (k + (emb.getD a []).length) (List.nodup_cons.mp hnd).2 htr
        (by simpa using hlen)
        (by rw [getD_set_ne _ _ _ _ _ hat]; exact hd)
      rw [hm, getD_set_ne _ _ _ _ _ hat]
      exact ⟨m, rfl⟩

/-- Claim C6 counterexample: `trainStep` on the all-zero weights with the
DUPLICATED token list `[0, 0]`, learning rate `1` and an oracle drawing `0.9`
every time.  Row `0` is perturbed once per occurrence, landing at
`2/25 = 0.08`, which no single draw `δ ∈ [-0.5, 0.5)` can produce as
`0 + 1 · δ · 0.1`. -/
theorem embedding_update_duplicate_tokens :
    ¬ ∃ δ : R, -(1 / 2) ≤ δ ∧ δ < 1 / 2 ∧
      (trainStep [0, 0] 0 zeroW 1 crand9).map
          (fun r => (r.newWeights.embeddings.getD 0 []).getD 0 0) =
        some ((zeroW.embeddings.getD 0 []).getD 0 0 + 1 * δ * 0.1) := by
  rintro ⟨δ, h1, h2, h3⟩
  rw [trainStep_z2] at h3
  simp only [Option.map_some', Option.some.injEq, List.getD_cons_zero, zeroW] at h3
  linarith

/-- Claim C6, amended: the embedding perturbation is applied once per
OCCURRENCE of a token in `inputTokens` (so a token listed twice is perturbed
twice); rows of absent tokens are untouched, and for a duplicate-free token
list every coordinate of a present (valid) token's row receives exactly
`lr · δ · 0.1` for a single draw `δ ∈ [-0.5, 0.5)`, independent of the loss. -/
theorem embedding_update_per_occurrence (toks : List Nat) (tgt : Nat) (w : Weights)
    (lr : R) (rand : Nat → R) (t d : Nat)
    (hrange : ∀ k, 0 ≤ rand k ∧ rand k < 1) :
    ((trainStep toks tgt w lr rand).map (fun r => r.newWeights.embeddings) =
      (trainStep toks tgt w lr rand).map
        (fun _ => updateEmbRows toks w.embeddings lr rand 0)) ∧
    (t ∉ toks →
      (updateEmbRows toks w.embeddings lr rand 0).getD t [] = w.embeddings.getD t []) ∧
    (toks.Nodup → t ∈ toks → t < w.embeddings.length →
      d < (w.embeddings.getD t []).length →
      ∃ δ : R, -(1 / 2) ≤ δ ∧ δ < 1 / 2 ∧
        ((updateEmbRows toks w.embeddings lr rand 0).getD t []).getD d 0 =
          (w.embeddings.getD t []).getD d 0 + lr * δ * 0.1) := by
  refine ⟨?_, ?_, ?_⟩
  · simp only [trainStep]
    cases lastFfnHidden (forward toks w (some tgt)) toks with
    | none => rfl
    | some lh => rfl
  · intro h
    exact updateEmbRows_not_mem toks _ lr rand 0 t h
  · intro hnd ht hl hd
    obtain ⟨m, hm⟩ := updateEmbRows_mem_once toks t d lr rand w.embeddings 0 hnd ht hl hd
    refine ⟨rand m - 0.5, ?_, ?_, ?_⟩
    · linarith [(hrange m).1]
    · linarith [(hrange m).2]
    · rw [hm]

/-- Claim C6 witness: the per-occurrence law at the all-zero weights, the
duplicate-free token list `[0]`, the all-zero oracle, `t = d = 0`. -/
theorem embedding_update_per_occurrence_witness :
    (∀ k, 0 ≤ czero k ∧ czero k < 1) ∧
    (((trainStep [0] 0 zeroW 1 czero).map (fun r => r.newWeights.embeddings) =
      (trainStep [0] 0 zeroW 1 czero).map
        (fun _ => updateEmbRows [0] zeroW.embeddings 1 czero 0)) ∧
    ((0 : Nat) ∉ ([0] : List Nat) →
      (updateEmbRows [0] zeroW.embeddings 1 czero 0).getD 0 [] = zeroW.embeddings.getD 0 []) ∧
    (([0] : List Nat).Nodup → (0 : Nat) ∈ ([0] : List Nat) → 0 < zeroW.embeddings.length →
      0 < (zeroW.embeddings.getD 0 []).length →
      ∃ δ : R, -(1 / 2) ≤ δ ∧ δ < 1 / 2 ∧
        ((updateEmbRows [0] zeroW.embeddings 1 czero 0).getD 0 []).getD 0 0 =
          (zeroW.embeddings.getD 0 []).getD 0 0 + 1 * δ * 0.1)) :=
  ⟨fun k => ⟨by norm_num [czero], by norm_num [czero]⟩,
    embedding_update_per_occurrence [0] 0 zeroW 1 czero 0 0
      (fun k => ⟨by norm_num [czero], by norm_num [czero]⟩)⟩
